import Mathlib

/-!
GameVault — verification of the manifest-based incremental sync engine.

Shallow embedding of the GameVault repository (Electron/Vue client plus
FastAPI server skeleton).  The shared type declarations
(`FileManifestEntry`, `GameManifest`, `DownloadProgress`), the IPC handlers
of the Electron main process and the `ApiClient` endpoints are translated
from the TypeScript source.  The synchronization engine itself (fingerprint
hashing, diff, transfer orchestration, integrity verification) is described
by the design document but not present in the source tree; those components
are modelled from the spec, with each such definition marked
`Modelled from the spec:` in its doc comment.
-/

namespace GameVault

/-- `FileManifestEntry` from the shared type definitions
(`src/unnamed/part_000`): `{ path: string; size: number;
modifiedTime: string; hash: string }`.  `size` is a byte count, hence
`Nat`; `modifiedTime` and the per-file content `hash` are strings as in
the source. -/
structure FileManifestEntry where
  path : String
  size : Nat
  modifiedTime : String
  hash : String
deriving DecidableEq, Repr

/-- Strict lexicographic path order on manifest entries (paths compared
as their character sequences): the order the spec sorts manifest file
lists by (`sorted by relativePath`, paths unique within a manifest, so
the order is strict on valid manifests). -/
def pathLt (a b : FileManifestEntry) : Prop := a.path.data < b.path.data

/-- Reflexive path order on manifest entries, used as the sorting
relation. -/
def pathLe (a b : FileManifestEntry) : Prop := a.path.data ≤ b.path.data

instance : DecidableRel pathLt :=
  fun a b => inferInstanceAs (Decidable (a.path.data < b.path.data))

instance : DecidableRel pathLe :=
  fun a b => inferInstanceAs (Decidable (a.path.data ≤ b.path.data))

instance : IsTotal FileManifestEntry pathLe := ⟨fun a b => le_total a.path.data b.path.data⟩

instance : IsTrans FileManifestEntry pathLe := ⟨fun _ _ _ h h2 => le_trans h h2⟩

instance : IsTrans FileManifestEntry pathLt := ⟨fun _ _ _ h h2 => lt_trans h h2⟩

instance : IsAntisymm FileManifestEntry pathLt :=
  ⟨fun _ _ h h2 => absurd h2 (lt_asymm h)⟩

/-- Modelled from the spec: the `manifestHash` digest type.  The source
declares `manifestHash: string` (an opaque 256-bit digest) but contains no
hashing implementation; the spec stipulates that the digest is computed
over the canonical serialization of the fingerprints in sorted order and
"changes if and only if any file's path, size, modifiedTime, or
contentHash changes" — i.e. the map from canonical sorted fingerprint list
to digest is injective.  The model therefore represents a digest by the
canonical sorted fingerprint list that determines it. -/
abbrev ManifestDigest := List FileManifestEntry

/-- Modelled from the spec: the Fingerprint Engine's tree-level digest —
sort the fingerprints by `relativePath` (sorting is mandatory before
hashing), then digest the canonical serialization.  See `ManifestDigest`
for the digest representation. -/
def computeManifestHash (files : List FileManifestEntry) : ManifestDigest :=
  files.insertionSort pathLe

/-- `GameManifest` from the shared type definitions
(`src/unnamed/part_000`): `{ version: string; gameId: number;
files: FileManifestEntry[]; manifestHash: string }` (digest modelled per
`ManifestDigest`). -/
structure GameManifest where
  version : String
  gameId : Int
  files : List FileManifestEntry
  manifestHash : ManifestDigest
deriving DecidableEq

/-- The spec's Manifest invariants: the file list is sorted by
`relativePath` with paths unique within the manifest (strict sortedness),
and `manifestHash` is the digest of the canonical sorted file list. -/
def wellFormed (m : GameManifest) : Prop :=
  m.files.Sorted pathLt ∧ m.manifestHash = computeManifestHash m.files

instance (m : GameManifest) : Decidable (wellFormed m) :=
  inferInstanceAs (Decidable (_ ∧ _))

/-- Modelled from the spec: `ReconciliationPlan`
`{ toAdd: [FileFingerprint], toReplace: [(old, new)], toRemove:
[FileFingerprint] }`.  Derived, not persisted. -/
structure ReconciliationPlan where
  toAdd : List FileManifestEntry
  toReplace : List (FileManifestEntry × FileManifestEntry)
  toRemove : List FileManifestEntry
deriving DecidableEq, Repr

/-- The empty reconciliation plan. -/
def emptyPlan : ReconciliationPlan := ⟨[], [], []⟩

/-- Modelled from the spec: the Diff Engine's merge-walk over the two
sorted file lists (single linear pass): a path only in `target` goes to
`toAdd`, only in `current` to `toRemove`, in both with differing content
hash to `toReplace` (old from current, new from target), in both with
equal content hash to no operation. -/
def diffFiles : List FileManifestEntry → List FileManifestEntry → ReconciliationPlan
  | ts, [] => ⟨ts, [], []⟩
  | [], cs => ⟨[], [], cs⟩
  | t :: ts, c :: cs =>
    if t.path.data < c.path.data then
      let rest := diffFiles ts (c :: cs)
      ⟨t :: rest.toAdd, rest.toReplace, rest.toRemove⟩
    else if c.path.data < t.path.data then
      let rest := diffFiles (t :: ts) cs
      ⟨rest.toAdd, rest.toReplace, c :: rest.toRemove⟩
    else
      let rest := diffFiles ts cs
      if t.hash = c.hash then rest
      else ⟨rest.toAdd, (c, t) :: rest.toReplace, rest.toRemove⟩
termination_by ts cs => ts.length + cs.length

/-- Modelled from the spec: `diff(target, current) -> ReconciliationPlan`.
Edge case first: if `target.manifestHash == current.manifestHash` the
engine short-circuits and returns an empty plan without walking the lists;
otherwise it merge-walks the two file lists. -/
def diff (target current : GameManifest) : ReconciliationPlan :=
  if target.manifestHash = current.manifestHash then emptyPlan
  else diffFiles target.files current.files

/-- The relative paths named by a manifest's file list. -/
def pathsOf (l : List FileManifestEntry) : List String := l.map FileManifestEntry.path

/-- The relative paths a plan schedules for addition. -/
def addPaths (p : ReconciliationPlan) : List String := p.toAdd.map FileManifestEntry.path

/-- The relative paths a plan schedules for replacement (each pair's old
and new entry share one path). -/
def replacePaths (p : ReconciliationPlan) : List String :=
  p.toReplace.map fun pr => pr.2.path

/-- The relative paths a plan schedules for removal. -/
def removePaths (p : ReconciliationPlan) : List String := p.toRemove.map FileManifestEntry.path

/-- Whether a plan leaves the file at an entry's path untouched (the
entry's path is scheduled neither for removal nor for replacement). -/
def keepEntry (p : ReconciliationPlan) (f : FileManifestEntry) : Bool :=
  decide (f.path ∉ removePaths p ∧ f.path ∉ replacePaths p)

/-- Modelled from the spec: the Transfer Orchestrator's net effect of
executing a plan on the tree described by a fingerprint list — entries at
removed or replaced paths disappear, the added entries and the
replacements' new entries appear, and untouched entries stay. -/
def applyPlan (p : ReconciliationPlan) (tree : List FileManifestEntry) :
    List FileManifestEntry :=
  tree.filter (keepEntry p) ++ p.toAdd ++ p.toReplace.map Prod.snd

/-- No metadata drift between two fingerprint lists: any entry of the
first and entry of the second that agree on path and content hash are the
same fingerprint (equal size and modifiedTime as well). -/
def driftFree (ts cs : List FileManifestEntry) : Prop :=
  ∀ ft ∈ ts, ∀ fc ∈ cs, ft.path = fc.path → ft.hash = fc.hash → ft = fc

instance (ts cs : List FileManifestEntry) : Decidable (driftFree ts cs) :=
  inferInstanceAs (Decidable (∀ ft ∈ ts, ∀ fc ∈ cs, _ → _ → _))

/-- The result record returned by the Electron main process IPC handlers
(`src/client/src/renderer/router.ts`, main-process section):
`{ success: boolean; message?: string }`, with `message` always set by the
stub handlers. -/
structure IpcResult where
  success : Bool
  message : String
deriving DecidableEq, Repr

/-- The client-local state an IPC handler could touch: the
`electron-store` key/value data and the local game tree.  The stub
handlers touch neither. -/
structure ClientState where
  storeData : List (String × String)
  localTree : List (String × String)
deriving DecidableEq

/-- The `ipcMain.handle('download-game')` handler from the Electron main
process: its body is only
`return { success: false, message: 'Not implemented' }` — no manifest
comparison, no file transfer, no mutation of local state. -/
def handleDownloadGame (st : ClientState) (gameId : Int) : ClientState × IpcResult :=
  (st, ⟨false, "Not implemented"⟩)

/-- The `ipcMain.handle('launch-game')` handler: returns the
not-implemented stub result and leaves state unchanged. -/
def handleLaunchGame (st : ClientState) (gamePath : String) : ClientState × IpcResult :=
  (st, ⟨false, "Not implemented"⟩)

/-- The `ipcMain.handle('upload-save')` handler: returns the
not-implemented stub result and leaves state unchanged. -/
def handleUploadSave (st : ClientState) (gameId : Int) (savePath : String) :
    ClientState × IpcResult :=
  (st, ⟨false, "Not implemented"⟩)

/-- The `ipcMain.handle('download-save')` handler: returns the
not-implemented stub result and leaves state unchanged. -/
def handleDownloadSave (st : ClientState) (gameId : Int) (saveId : Int) :
    ClientState × IpcResult :=
  (st, ⟨false, "Not implemented"⟩)

/-- An HTTP request issued by the `ApiClient`
(`src/client/src/common/api.ts`): method and URL path relative to the
configured base URL. -/
structure ApiRequest where
  method : String
  url : String
deriving DecidableEq, Repr

/-- `ApiClient.getGameManifestHash(id)` from `src/client/src/common/api.ts`:
`this.client.get(`/api/games/{id}/manifest-hash`)` — requests only the
digest. -/
def getGameManifestHash (id : Int) : ApiRequest :=
  ⟨"GET", "/api/games/" ++ toString id ++ "/manifest-hash"⟩

/-- `ApiClient.getGameManifest(id)` from `src/client/src/common/api.ts`:
`this.client.get(`/api/games/{id}/manifest`)` — requests the full manifest
payload. -/
def getGameManifest (id : Int) : ApiRequest :=
  ⟨"GET", "/api/games/" ++ toString id ++ "/manifest"⟩

/-- `DownloadProgress` from the shared type definitions
(`src/unnamed/part_000`): `{ gameId, totalFiles, completedFiles,
totalBytes, downloadedBytes, speed, eta }`, all `number`-typed. -/
structure DownloadProgress where
  gameId : Int
  totalFiles : Int
  completedFiles : Int
  totalBytes : Int
  downloadedBytes : Int
  speed : Int
  eta : Int
deriving DecidableEq, Repr

/-- Modelled from the spec: the TransferTask state-machine phases
(§4.4): `Pending → Downloading → Verifying → Committed`, with
`Failed → Pending` retries and a terminal `Abandoned`. -/
inductive TaskPhase where
  | pending
  | downloading
  | verifying
  | committed
  | failed
  | abandoned
deriving DecidableEq, Repr

/-- Modelled from the spec: the per-file content digest recomputed by the
Integrity Verifier.  The digest is idealized as collision-free (the spec
treats the content hash as authoritative for file identity), so it is
represented by the canonical value of the content it is computed from. -/
def hashBytes (content : String) : String := content

/-- Modelled from the spec: a TransferTask — target path, expected
contentHash, resume cursor, state, and the temporary file (distinct from
the final path) holding the bytes downloaded so far, if any. -/
structure TransferTask where
  targetPath : String
  expectedHash : String
  cursor : Nat
  phase : TaskPhase
  temp : Option String
deriving DecidableEq, Repr

/-- Write `content` at `path` in a local tree (association list from path
to file content), replacing any previous file at that path. -/
def writeTree (tr : List (String × String)) (path content : String) :
    List (String × String) :=
  (path, content) :: tr.filter (fun pr => pr.1 ≠ path)

/-- Modelled from the spec: the Verifying step of the Transfer
Orchestrator (§4.4).  Recompute the content hash of the temporary file:
on a match, atomically move the temporary file into place at the final
path and mark the task `Committed`; on a mismatch
(`Verifying→Failed→Pending`), discard the temporary file entirely and
re-enter `Pending` with the resume cursor reset to 0, leaving the tree
untouched. -/
def verifyStep (task : TransferTask) (tree : List (String × String)) :
    TransferTask × List (String × String) :=
  match task.temp with
  | none => (task, tree)
  | some bytes =>
    if hashBytes bytes = task.expectedHash then
      ({ task with phase := .committed, temp := none },
        writeTree tree task.targetPath bytes)
    else
      ({ task with phase := .pending, temp := none, cursor := 0 }, tree)

/-- Modelled from the spec: the supervisor-visible state of one
TransferTask — its phase and how many failed attempts have been consumed
from the retry budget. -/
structure TaskState where
  phase : TaskPhase
  attempts : Nat
deriving DecidableEq, Repr

/-- Modelled from the spec: the TransferTask state machine (§4.4) with
the Progress/Retry Supervisor's bounded retry budget (§7): a `Failed`
task re-enters `Pending` only while attempts remain below the budget, and
is `Abandoned` once the budget is exhausted. -/
inductive TaskStep (budget : Nat) : TaskState → TaskState → Prop where
  | start (a : Nat) : TaskStep budget ⟨.pending, a⟩ ⟨.downloading, a⟩
  | finishDownload (a : Nat) : TaskStep budget ⟨.downloading, a⟩ ⟨.verifying, a⟩
  | downloadFail (a : Nat) : TaskStep budget ⟨.downloading, a⟩ ⟨.failed, a⟩
  | verifyOk (a : Nat) : TaskStep budget ⟨.verifying, a⟩ ⟨.committed, a⟩
  | verifyFail (a : Nat) : TaskStep budget ⟨.verifying, a⟩ ⟨.failed, a⟩
  | retry (a : Nat) (h : a < budget) : TaskStep budget ⟨.failed, a⟩ ⟨.pending, a + 1⟩
  | abandon (a : Nat) (h : budget ≤ a) : TaskStep budget ⟨.failed, a⟩ ⟨.abandoned, a⟩

/-- Concrete scenario manifest (spec §8): target tree
`{a.dat: hashX, b.dat: hashY}`. -/
def scenarioTarget : GameManifest :=
  ⟨"1.0", 1,
    [⟨"a.dat", 10, "2024-01-01", "hashX"⟩, ⟨"b.dat", 20, "2024-01-01", "hashY"⟩],
    computeManifestHash
      [⟨"a.dat", 10, "2024-01-01", "hashX"⟩, ⟨"b.dat", 20, "2024-01-01", "hashY"⟩]⟩

/-- Concrete scenario manifest (spec §8): current tree
`{a.dat: hashX, c.dat: hashZ}`. -/
def scenarioCurrent : GameManifest :=
  ⟨"1.0", 1,
    [⟨"a.dat", 10, "2024-01-01", "hashX"⟩, ⟨"c.dat", 30, "2024-01-01", "hashZ"⟩],
    computeManifestHash
      [⟨"a.dat", 10, "2024-01-01", "hashX"⟩, ⟨"c.dat", 30, "2024-01-01", "hashZ"⟩]⟩

/-- Concrete manifest whose single entry matches `driftCurrent`'s entry in
path, size and content hash but not in modifiedTime (metadata drift on a
content-identical file). -/
def driftTarget : GameManifest :=
  ⟨"1.0", 2, [⟨"a.dat", 10, "2024-01-01", "h"⟩],
    computeManifestHash [⟨"a.dat", 10, "2024-01-01", "h"⟩]⟩

/-- Concrete manifest carrying the drifted counterpart of `driftTarget`'s
entry: same path, size and content hash, different modifiedTime. -/
def driftCurrent : GameManifest :=
  ⟨"1.0", 2, [⟨"a.dat", 10, "2024-02-02", "h"⟩],
    computeManifestHash [⟨"a.dat", 10, "2024-02-02", "h"⟩]⟩

/-- Concrete manifest pair member for the content-change round trip: the
target fingerprint of `a.dat` after an edit. -/
def editTarget : GameManifest :=
  ⟨"1.0", 3, [⟨"a.dat", 12, "2024-03-03", "h2"⟩],
    computeManifestHash [⟨"a.dat", 12, "2024-03-03", "h2"⟩]⟩

/-- Concrete manifest pair member for the content-change round trip: the
current fingerprint of `a.dat` before the edit. -/
def editCurrent : GameManifest :=
  ⟨"1.0", 3, [⟨"a.dat", 10, "2024-01-01", "h1"⟩],
    computeManifestHash [⟨"a.dat", 10, "2024-01-01", "h1"⟩]⟩

/-- Concrete manifest that stores the same digest value as
`digestTwinY` while listing different files: exercises the short-circuit
on digest equality alone. -/
def digestTwinX : GameManifest := ⟨"1", 1, [⟨"x.dat", 1, "t", "h1"⟩], []⟩

/-- Concrete manifest that stores the same digest value as
`digestTwinX` while listing different files. -/
def digestTwinY : GameManifest := ⟨"1", 1, [⟨"y.dat", 2, "t", "h2"⟩], []⟩

/-- Concrete transfer task in the Verifying phase whose temporary file
content does not hash to the expected content hash. -/
def corruptTask : TransferTask :=
  ⟨"a.dat", "good", 5, TaskPhase.verifying, some ("bad")⟩

/-- Concrete local tree holding the pre-download file at the corrupt
task's target path. -/
def staleTree : List (String × String) := [("a.dat", "old")]

/-- Rank of a phase within one attempt: strictly decreasing along every
transition that keeps the attempt count. -/
def phaseRank : TaskPhase → Nat
  | .pending => 4
  | .downloading => 3
  | .verifying => 2
  | .failed => 1
  | .committed => 0
  | .abandoned => 0

/-- Termination measure for the task state machine: remaining retry
budget, weighted, plus the phase rank. -/
def taskMeasure (budget : Nat) (s : TaskState) : Nat :=
  5 * (budget + 1 - s.attempts) + phaseRank s.phase

/-! ### Path-order and sorted-list facts -/

theorem string_eq_of_data_eq {a b : String} (h : a.data = b.data) : a = b :=
  congrArg String.mk h

theorem path_ne_of_pathLt {a b : FileManifestEntry} (h : pathLt a b) : a.path ≠ b.path := by
  intro he
  have h2 : a.path.data < b.path.data := h
  rw [congrArg String.data he] at h2
  exact lt_irrefl _ h2

theorem path_eq_of_not_lt {t c : FileManifestEntry} (h1 : ¬ pathLt t c) (h2 : ¬ pathLt c t) :
    t.path = c.path :=
  string_eq_of_data_eq (le_antisymm (not_lt.mp h2) (not_lt.mp h1))

theorem sorted_cons_lt {x : FileManifestEntry} {l : List FileManifestEntry}
    (hs : (x :: l).Sorted pathLt) : ∀ f ∈ l, pathLt x f :=
  (List.pairwise_cons.mp hs).1

theorem sorted_of_cons {x : FileManifestEntry} {l : List FileManifestEntry}
    (hs : (x :: l).Sorted pathLt) : l.Sorted pathLt :=
  (List.pairwise_cons.mp hs).2

theorem mem_pathsOf {p : String} {l : List FileManifestEntry} :
    p ∈ pathsOf l ↔ ∃ f ∈ l, f.path = p := by
  simp [pathsOf]

theorem head_not_mem_pathsOf {x : FileManifestEntry} {l : List FileManifestEntry}
    (hs : (x :: l).Sorted pathLt) : x.path ∉ pathsOf l := by
  rw [mem_pathsOf]
  rintro ⟨f, hf, he⟩
  exact path_ne_of_pathLt (sorted_cons_lt hs f hf) he.symm

theorem entry_unique {l : List FileManifestEntry} (hs : l.Sorted pathLt) :
    ∀ {a b : FileManifestEntry}, a ∈ l → b ∈ l → a.path = b.path → a = b := by
  induction l with
  | nil => intro a _ ha _ _; exact absurd ha (List.not_mem_nil a)
  | cons x l ih =>
    intro a b ha hb hp
    rcases List.mem_cons.mp ha with h1 | h1 <;> rcases List.mem_cons.mp hb with h2 | h2
    · rw [h1, h2]
    · rw [h1] at hp ⊢
      exact absurd hp (path_ne_of_pathLt (sorted_cons_lt hs b h2))
    · rw [h2] at hp ⊢
      exact absurd hp.symm (path_ne_of_pathLt (sorted_cons_lt hs a h1))
    · exact ih (sorted_of_cons hs) h1 h2 hp

theorem nodup_pathsOf_of_sorted {l : List FileManifestEntry} (hs : l.Sorted pathLt) :
    (pathsOf l).Nodup :=
  List.pairwise_map.mpr (hs.imp fun h => path_ne_of_pathLt h)

theorem sorted_lt_of_le_nodup {l : List FileManifestEntry} (hle : l.Sorted pathLe)
    (hnd : (pathsOf l).Nodup) : l.Sorted pathLt := by
  have hne : l.Pairwise fun a b => a.path ≠ b.path := List.pairwise_map.mp hnd
  exact (hle.and hne).imp fun h => lt_of_le_of_ne h.1 fun he => h.2 (string_eq_of_data_eq he)

/-! ### Canonical digest facts -/

theorem perm_computeManifestHash (l : List FileManifestEntry) :
    (computeManifestHash l).Perm l :=
  List.perm_insertionSort pathLe l

theorem sorted_computeManifestHash {l : List FileManifestEntry}
    (hnd : (pathsOf l).Nodup) : (computeManifestHash l).Sorted pathLt := by
  refine sorted_lt_of_le_nodup (List.sorted_insertionSort pathLe l) ?_
  exact (((perm_computeManifestHash l).map FileManifestEntry.path).nodup_iff).mpr hnd

theorem computeManifestHash_eq_of_sorted {l : List FileManifestEntry}
    (hs : l.Sorted pathLt) : computeManifestHash l = l :=
  List.eq_of_perm_of_sorted (perm_computeManifestHash l)
    (sorted_computeManifestHash (nodup_pathsOf_of_sorted hs)) hs

theorem computeManifestHash_perm_congr {l₁ l₂ : List FileManifestEntry}
    (hp : l₁.Perm l₂) (hnd : (pathsOf l₁).Nodup) :
    computeManifestHash l₁ = computeManifestHash l₂ :=
  List.eq_of_perm_of_sorted
    ((perm_computeManifestHash l₁).trans (hp.trans (perm_computeManifestHash l₂).symm))
    (sorted_computeManifestHash hnd)
    (sorted_computeManifestHash ((hp.map FileManifestEntry.path).nodup_iff.mp hnd))

/-! ### Unfolding the diff merge-walk -/

theorem diffFiles_nil_right (l : List FileManifestEntry) : diffFiles l [] = ⟨l, [], []⟩ := by
  cases l <;> simp [diffFiles]

theorem diffFiles_nil_left (l : List FileManifestEntry) : diffFiles [] l = ⟨[], [], l⟩ := by
  cases l <;> simp [diffFiles]

theorem diffFiles_cons_lt {t c : FileManifestEntry} {ts cs : List FileManifestEntry}
    (h : t.path.data < c.path.data) :
    diffFiles (t :: ts) (c :: cs) =
      ⟨t :: (diffFiles ts (c :: cs)).toAdd, (diffFiles ts (c :: cs)).toReplace,
        (diffFiles ts (c :: cs)).toRemove⟩ := by
  simp [diffFiles, h]

theorem diffFiles_cons_gt {t c : FileManifestEntry} {ts cs : List FileManifestEntry}
    (h : c.path.data < t.path.data) :
    diffFiles (t :: ts) (c :: cs) =
      ⟨(diffFiles (t :: ts) cs).toAdd, (diffFiles (t :: ts) cs).toReplace,
        c :: (diffFiles (t :: ts) cs).toRemove⟩ := by
  simp [diffFiles, h, lt_asymm h]

theorem diffFiles_cons_hash_eq {t c : FileManifestEntry} {ts cs : List FileManifestEntry}
    (hp : t.path.data = c.path.data) (hh : t.hash = c.hash) :
    diffFiles (t :: ts) (c :: cs) = diffFiles ts cs := by
  simp [diffFiles, hp, hh]

theorem diffFiles_cons_hash_ne {t c : FileManifestEntry} {ts cs : List FileManifestEntry}
    (hp : t.path.data = c.path.data) (hh : t.hash ≠ c.hash) :
    diffFiles (t :: ts) (c :: cs) =
      ⟨(diffFiles ts cs).toAdd, (c, t) :: (diffFiles ts cs).toReplace,
        (diffFiles ts cs).toRemove⟩ := by
  simp [diffFiles, hp, hh]

theorem mem_pathsOf_cons {p : String} {x : FileManifestEntry} {l : List FileManifestEntry} :
    p ∈ pathsOf (x :: l) ↔ p = x.path ∨ p ∈ pathsOf l := by
  simp [pathsOf]

/-! ### Characterization of the merge-walk plan -/

theorem only_in_transfer {t c : FileManifestEntry} {ts cs : List FileManifestEntry} {p : String}
    (hst : (t :: ts).Sorted pathLt) (hpeq : t.path = c.path) :
    (p ∈ pathsOf ts ∧ p ∉ pathsOf cs) ↔ (p ∈ pathsOf (t :: ts) ∧ p ∉ pathsOf (c :: cs)) := by
  constructor
  · rintro ⟨h1, h2⟩
    refine ⟨mem_pathsOf_cons.mpr (Or.inr h1), fun h3 => ?_⟩
    rcases mem_pathsOf_cons.mp h3 with h4 | h4
    · obtain ⟨f, hf, he⟩ := mem_pathsOf.mp h1
      exact path_ne_of_pathLt (sorted_cons_lt hst f hf) (hpeq.trans (he.trans h4).symm)
    · exact h2 h4
  · rintro ⟨h1, h2⟩
    rcases mem_pathsOf_cons.mp h1 with h3 | h3
    · exact absurd (mem_pathsOf_cons.mpr (Or.inl (h3.trans hpeq))) h2
    · exact ⟨h3, fun h4 => h2 (mem_pathsOf_cons.mpr (Or.inr h4))⟩

theorem mem_addPaths_diffFiles :
    ∀ (ts cs : List FileManifestEntry), ts.Sorted pathLt → cs.Sorted pathLt →
      ∀ p : String,
        (p ∈ addPaths (diffFiles ts cs) ↔ p ∈ pathsOf ts ∧ p ∉ pathsOf cs) := by
  intro ts cs
  induction ts, cs using diffFiles.induct with
  | case1 ts =>
    intro _ _ p
    simp [diffFiles_nil_right, addPaths, pathsOf]
  | case2 cs hne =>
    intro _ _ p
    simp [diffFiles_nil_left, addPaths, pathsOf]
  | case3 t ts c cs hlt ih =>
    intro hst hsc p
    have hts := sorted_of_cons hst
    have hih := ih hts hsc p
    have hnotc : t.path ∉ pathsOf (c :: cs) := by
      rw [mem_pathsOf]
      rintro ⟨f, hf, he⟩
      rcases List.mem_cons.mp hf with h2 | h2
      · rw [h2] at he
        exact path_ne_of_pathLt hlt he.symm
      · exact path_ne_of_pathLt (lt_trans hlt (sorted_cons_lt hsc f h2)) he.symm
    rw [diffFiles_cons_lt hlt]
    show p ∈ t.path :: addPaths (diffFiles ts (c :: cs)) ↔ _
    rw [List.mem_cons, hih]
    constructor
    · rintro (rfl | ⟨h1, h2⟩)
      · exact ⟨mem_pathsOf_cons.mpr (Or.inl rfl), hnotc⟩
      · exact ⟨mem_pathsOf_cons.mpr (Or.inr h1), h2⟩
    · rintro ⟨h1, h2⟩
      rcases mem_pathsOf_cons.mp h1 with h3 | h3
      · exact Or.inl h3
      · exact Or.inr ⟨h3, h2⟩
  | case4 t ts c cs hnlt hlt ih =>
    intro hst hsc p
    have hcs := sorted_of_cons hsc
    have hih := ih hst hcs p
    have hkey : p ∈ pathsOf (t :: ts) → p ≠ c.path := by
      intro hmem hpc
      rw [mem_pathsOf] at hmem
      obtain ⟨f, hf, he⟩ := hmem
      rcases List.mem_cons.mp hf with h2 | h2
      · rw [h2] at he
        exact path_ne_of_pathLt hlt (he.trans hpc).symm
      · exact path_ne_of_pathLt (lt_trans hlt (sorted_cons_lt hst f h2)) (he.trans hpc).symm
    rw [diffFiles_cons_gt hlt]
    show p ∈ addPaths (diffFiles (t :: ts) cs) ↔ _
    rw [hih]
    constructor
    · rintro ⟨h1, h2⟩
      refine ⟨h1, fun h3 => ?_⟩
      rcases mem_pathsOf_cons.mp h3 with h4 | h4
      · exact hkey h1 h4
      · exact h2 h4
    · rintro ⟨h1, h2⟩
      exact ⟨h1, fun h3 => h2 (mem_pathsOf_cons.mpr (Or.inr h3))⟩
  | case5 t ts c cs hnlt hnlt2 hhash ih =>
    intro hst hsc p
    have hpeq : t.path = c.path := path_eq_of_not_lt hnlt hnlt2
    rw [diffFiles_cons_hash_eq (congrArg String.data hpeq) hhash,
      ih (sorted_of_cons hst) (sorted_of_cons hsc) p]
    exact only_in_transfer hst hpeq
  | case6 t ts c cs hnlt hnlt2 hhash ih =>
    intro hst hsc p
    have hpeq : t.path = c.path := path_eq_of_not_lt hnlt hnlt2
    rw [diffFiles_cons_hash_ne (congrArg String.data hpeq) hhash]
    show p ∈ addPaths (diffFiles ts cs) ↔ _
    rw [ih (sorted_of_cons hst) (sorted_of_cons hsc) p]
    exact only_in_transfer hst hpeq

theorem path_lt_all_cons {t c : FileManifestEntry} {cs : List FileManifestEntry}
    (hsc : (c :: cs).Sorted pathLt) (hlt : pathLt t c) :
    ∀ f ∈ c :: cs, pathLt t f := by
  intro f hf
  rcases List.mem_cons.mp hf with h | h
  · rw [h]
    exact hlt
  · exact lt_trans hlt (sorted_cons_lt hsc f h)

theorem not_mem_pathsOf_cons_gt {t c : FileManifestEntry} {cs : List FileManifestEntry}
    (hsc : (c :: cs).Sorted pathLt) (hlt : pathLt t c) :
    t.path ∉ pathsOf (c :: cs) := by
  rw [mem_pathsOf]
  rintro ⟨f, hf, he⟩
  exact path_ne_of_pathLt (path_lt_all_cons hsc hlt f hf) he.symm

theorem mem_removePaths_diffFiles :
    ∀ (ts cs : List FileManifestEntry), ts.Sorted pathLt → cs.Sorted pathLt →
      ∀ p : String,
        (p ∈ removePaths (diffFiles ts cs) ↔ p ∈ pathsOf cs ∧ p ∉ pathsOf ts) := by
  intro ts cs
  induction ts, cs using diffFiles.induct with
  | case1 ts =>
    intro _ _ p
    simp [diffFiles_nil_right, removePaths, pathsOf]
  | case2 cs hne =>
    intro _ _ p
    simp [diffFiles_nil_left, removePaths, pathsOf]
  | case3 t ts c cs hlt ih =>
    intro hst hsc p
    have hih := ih (sorted_of_cons hst) hsc p
    rw [diffFiles_cons_lt hlt]
    show p ∈ removePaths (diffFiles ts (c :: cs)) ↔ _
    rw [hih]
    constructor
    · rintro ⟨h1, h2⟩
      refine ⟨h1, fun h3 => ?_⟩
      rcases mem_pathsOf_cons.mp h3 with h4 | h4
      · obtain ⟨f, hf, he⟩ := mem_pathsOf.mp h1
        exact path_ne_of_pathLt (path_lt_all_cons hsc hlt f hf) ((he.trans h4).symm)
      · exact h2 h4
    · rintro ⟨h1, h2⟩
      exact ⟨h1, fun h3 => h2 (mem_pathsOf_cons.mpr (Or.inr h3))⟩
  | case4 t ts c cs hnlt hlt ih =>
    intro hst hsc p
    have hih := ih hst (sorted_of_cons hsc) p
    have hnott : c.path ∉ pathsOf (t :: ts) := not_mem_pathsOf_cons_gt hst hlt
    rw [diffFiles_cons_gt hlt]
    show p ∈ c.path :: removePaths (diffFiles (t :: ts) cs) ↔ _
    rw [List.mem_cons, hih]
    constructor
    · rintro (rfl | ⟨h1, h2⟩)
      · exact ⟨mem_pathsOf_cons.mpr (Or.inl rfl), hnott⟩
      · exact ⟨mem_pathsOf_cons.mpr (Or.inr h1), h2⟩
    · rintro ⟨h1, h2⟩
      rcases mem_pathsOf_cons.mp h1 with h3 | h3
      · exact Or.inl h3
      · exact Or.inr ⟨h3, h2⟩
  | case5 t ts c cs hnlt hnlt2 hhash ih =>
    intro hst hsc p
    have hpeq : t.path = c.path := path_eq_of_not_lt hnlt hnlt2
    rw [diffFiles_cons_hash_eq (congrArg String.data hpeq) hhash,
      ih (sorted_of_cons hst) (sorted_of_cons hsc) p]
    exact only_in_transfer hsc hpeq.symm
  | case6 t ts c cs hnlt hnlt2 hhash ih =>
    intro hst hsc p
    have hpeq : t.path = c.path := path_eq_of_not_lt hnlt hnlt2
    rw [diffFiles_cons_hash_ne (congrArg String.data hpeq) hhash]
    show p ∈ removePaths (diffFiles ts cs) ↔ _
    rw [ih (sorted_of_cons hst) (sorted_of_cons hsc) p]
    exact only_in_transfer hsc hpeq.symm

theorem mem_toReplace_diffFiles :
    ∀ (ts cs : List FileManifestEntry), ts.Sorted pathLt → cs.Sorted pathLt →
      ∀ o n : FileManifestEntry,
        ((o, n) ∈ (diffFiles ts cs).toReplace ↔
          n ∈ ts ∧ o ∈ cs ∧ n.path = o.path ∧ n.hash ≠ o.hash) := by
  intro ts cs
  induction ts, cs using diffFiles.induct with
  | case1 ts =>
    intro _ _ o n
    simp [diffFiles_nil_right]
  | case2 cs hne =>
    intro _ _ o n
    simp [diffFiles_nil_left]
  | case3 t ts c cs hlt ih =>
    intro hst hsc o n
    have hih := ih (sorted_of_cons hst) hsc o n
    rw [diffFiles_cons_lt hlt]
    show (o, n) ∈ (diffFiles ts (c :: cs)).toReplace ↔ _
    rw [hih]
    constructor
    · rintro ⟨hn, ho, hp, hh⟩
      exact ⟨List.mem_cons.mpr (Or.inr hn), ho, hp, hh⟩
    · rintro ⟨hn, ho, hp, hh⟩
      rcases List.mem_cons.mp hn with h3 | h3
      · exfalso
        rw [h3] at hp
        exact path_ne_of_pathLt (path_lt_all_cons hsc hlt o ho) hp
      · exact ⟨h3, ho, hp, hh⟩
  | case4 t ts c cs hnlt hlt ih =>
    intro hst hsc o n
    have hih := ih hst (sorted_of_cons hsc) o n
    rw [diffFiles_cons_gt hlt]
    show (o, n) ∈ (diffFiles (t :: ts) cs).toReplace ↔ _
    rw [hih]
    constructor
    · rintro ⟨hn, ho, hp, hh⟩
      exact ⟨hn, List.mem_cons.mpr (Or.inr ho), hp, hh⟩
    · rintro ⟨hn, ho, hp, hh⟩
      rcases List.mem_cons.mp ho with h3 | h3
      · exfalso
        rw [h3] at hp
        exact path_ne_of_pathLt (path_lt_all_cons hst hlt n hn) hp.symm
      · exact ⟨hn, h3, hp, hh⟩
  | case5 t ts c cs hnlt hnlt2 hhash ih =>
    intro hst hsc o n
    have hpeq : t.path = c.path := path_eq_of_not_lt hnlt hnlt2
    have hih := ih (sorted_of_cons hst) (sorted_of_cons hsc) o n
    rw [diffFiles_cons_hash_eq (congrArg String.data hpeq) hhash, hih]
    constructor
    · rintro ⟨hn, ho, hp, hh⟩
      exact ⟨List.mem_cons.mpr (Or.inr hn), List.mem_cons.mpr (Or.inr ho), hp, hh⟩
    · rintro ⟨hn, ho, hp, hh⟩
      rcases List.mem_cons.mp hn with h3 | h3
      · rcases List.mem_cons.mp ho with h4 | h4
        · exfalso
          rw [h3, h4] at hh
          exact hh hhash
        · exfalso
          rw [h3] at hp
          exact path_ne_of_pathLt (sorted_cons_lt hsc o h4) (hpeq.symm.trans hp)
      · rcases List.mem_cons.mp ho with h4 | h4
        · exfalso
          rw [h4] at hp
          exact path_ne_of_pathLt (sorted_cons_lt hst n h3) (hp.trans hpeq.symm).symm
        · exact ⟨h3, h4, hp, hh⟩
  | case6 t ts c cs hnlt hnlt2 hhash ih =>
    intro hst hsc o n
    have hpeq : t.path = c.path := path_eq_of_not_lt hnlt hnlt2
    have hih := ih (sorted_of_cons hst) (sorted_of_cons hsc) o n
    rw [diffFiles_cons_hash_ne (congrArg String.data hpeq) hhash]
    show (o, n) ∈ (c, t) :: (diffFiles ts cs).toReplace ↔ _
    rw [List.mem_cons, hih, Prod.mk.injEq]
    constructor
    · rintro (⟨rfl, rfl⟩ | ⟨hn, ho, hp, hh⟩)
      · exact ⟨List.mem_cons.mpr (Or.inl rfl), List.mem_cons.mpr (Or.inl rfl), hpeq, hhash⟩
      · exact ⟨List.mem_cons.mpr (Or.inr hn), List.mem_cons.mpr (Or.inr ho), hp, hh⟩
    · rintro ⟨hn, ho, hp, hh⟩
      rcases List.mem_cons.mp hn with h3 | h3
      · rcases List.mem_cons.mp ho with h4 | h4
        · exact Or.inl ⟨h4, h3⟩
        · exfalso
          rw [h3] at hp
          exact path_ne_of_pathLt (sorted_cons_lt hsc o h4) (hpeq.symm.trans hp)
      · rcases List.mem_cons.mp ho with h4 | h4
        · exfalso
          rw [h4] at hp
          exact path_ne_of_pathLt (sorted_cons_lt hst n h3) (hp.trans hpeq.symm).symm
        · exact Or.inr ⟨h3, h4, hp, hh⟩

/-! ### Applying a plan to the current tree -/

theorem keepEntry_eq_true {p : ReconciliationPlan} {f : FileManifestEntry} :
    keepEntry p f = true ↔ (f.path ∉ removePaths p ∧ f.path ∉ replacePaths p) := by
  simp [keepEntry]

theorem removePaths_diffFiles_subset :
    ∀ (ts cs : List FileManifestEntry), removePaths (diffFiles ts cs) ⊆ pathsOf cs := by
  intro ts cs
  induction ts, cs using diffFiles.induct with
  | case1 ts =>
    rw [diffFiles_nil_right]
    intro p hp
    simp [removePaths] at hp
  | case2 cs hne =>
    rw [diffFiles_nil_left]
    intro p hp
    exact hp
  | case3 t ts c cs hlt ih =>
    rw [diffFiles_cons_lt hlt]
    exact ih
  | case4 t ts c cs hnlt hlt ih =>
    rw [diffFiles_cons_gt hlt]
    intro p hp
    rcases List.mem_cons.mp hp with h | h
    · exact mem_pathsOf_cons.mpr (Or.inl h)
    · exact mem_pathsOf_cons.mpr (Or.inr (ih h))
  | case5 t ts c cs hnlt hnlt2 hhash ih =>
    rw [diffFiles_cons_hash_eq (congrArg String.data (path_eq_of_not_lt hnlt hnlt2)) hhash]
    intro p hp
    exact mem_pathsOf_cons.mpr (Or.inr (ih hp))
  | case6 t ts c cs hnlt hnlt2 hhash ih =>
    rw [diffFiles_cons_hash_ne (congrArg String.data (path_eq_of_not_lt hnlt hnlt2)) hhash]
    intro p hp
    exact mem_pathsOf_cons.mpr (Or.inr (ih hp))

theorem replacePaths_diffFiles_subset :
    ∀ (ts cs : List FileManifestEntry), replacePaths (diffFiles ts cs) ⊆ pathsOf cs := by
  intro ts cs
  induction ts, cs using diffFiles.induct with
  | case1 ts =>
    rw [diffFiles_nil_right]
    intro p hp
    simp [replacePaths] at hp
  | case2 cs hne =>
    rw [diffFiles_nil_left]
    intro p hp
    simp [replacePaths] at hp
  | case3 t ts c cs hlt ih =>
    rw [diffFiles_cons_lt hlt]
    exact ih
  | case4 t ts c cs hnlt hlt ih =>
    rw [diffFiles_cons_gt hlt]
    intro p hp
    exact mem_pathsOf_cons.mpr (Or.inr (ih hp))
  | case5 t ts c cs hnlt hnlt2 hhash ih =>
    rw [diffFiles_cons_hash_eq (congrArg String.data (path_eq_of_not_lt hnlt hnlt2)) hhash]
    intro p hp
    exact mem_pathsOf_cons.mpr (Or.inr (ih hp))
  | case6 t ts c cs hnlt hnlt2 hhash ih =>
    have hpeq : t.path = c.path := path_eq_of_not_lt hnlt hnlt2
    rw [diffFiles_cons_hash_ne (congrArg String.data hpeq) hhash]
    intro p hp
    rcases List.mem_cons.mp hp with h | h
    · exact mem_pathsOf_cons.mpr (Or.inl (h.trans hpeq))
    · exact mem_pathsOf_cons.mpr (Or.inr (ih h))

theorem applyPlan_diffFiles_perm :
    ∀ (ts cs : List FileManifestEntry), ts.Sorted pathLt → cs.Sorted pathLt →
      driftFree ts cs → (applyPlan (diffFiles ts cs) cs).Perm ts := by
  intro ts cs
  induction ts, cs using diffFiles.induct with
  | case1 ts =>
    intro _ _ _
    rw [diffFiles_nil_right]
    simp [applyPlan]
  | case2 cs hne =>
    intro _ _ _
    rw [diffFiles_nil_left]
    have hf : cs.filter (keepEntry ⟨[], [], cs⟩) = [] := by
      rw [List.filter_eq_nil_iff]
      intro f hfm hkeep
      rw [keepEntry_eq_true] at hkeep
      exact hkeep.1 (mem_pathsOf.mpr ⟨f, hfm, rfl⟩)
    simp [applyPlan, hf]
  | case3 t ts c cs hlt ih =>
    intro hst hsc hdf
    have hdf2 : driftFree ts (c :: cs) :=
      fun ft hft fc hfc => hdf ft (List.mem_cons.mpr (Or.inr hft)) fc hfc
    have hih := ih (sorted_of_cons hst) hsc hdf2
    rw [diffFiles_cons_lt hlt]
    have hkeep : keepEntry
        ⟨t :: (diffFiles ts (c :: cs)).toAdd, (diffFiles ts (c :: cs)).toReplace,
          (diffFiles ts (c :: cs)).toRemove⟩ = keepEntry (diffFiles ts (c :: cs)) := by
      funext f
      simp [keepEntry, removePaths, replacePaths]
    show ((c :: cs).filter _ ++ (t :: (diffFiles ts (c :: cs)).toAdd) ++
        (diffFiles ts (c :: cs)).toReplace.map Prod.snd).Perm (t :: ts)
    rw [hkeep, List.append_assoc, List.cons_append]
    refine List.perm_middle.trans ?_
    apply List.Perm.cons
    rw [← List.append_assoc]
    exact hih
  | case4 t ts c cs hnlt hlt ih =>
    intro hst hsc hdf
    have hdf2 : driftFree (t :: ts) cs :=
      fun ft hft fc hfc => hdf ft hft fc (List.mem_cons.mpr (Or.inr hfc))
    have hih := ih hst (sorted_of_cons hsc) hdf2
    rw [diffFiles_cons_gt hlt]
    have hkc : keepEntry
        ⟨(diffFiles (t :: ts) cs).toAdd, (diffFiles (t :: ts) cs).toReplace,
          c :: (diffFiles (t :: ts) cs).toRemove⟩ c = false := by
      simp [keepEntry, removePaths]
    have hagree : ∀ f ∈ cs, keepEntry
        ⟨(diffFiles (t :: ts) cs).toAdd, (diffFiles (t :: ts) cs).toReplace,
          c :: (diffFiles (t :: ts) cs).toRemove⟩ f = keepEntry (diffFiles (t :: ts) cs) f := by
      intro f hf
      have hne : f.path ≠ c.path :=
        fun he => path_ne_of_pathLt (sorted_cons_lt hsc f hf) he.symm
      simp [keepEntry, removePaths, replacePaths, hne]
    show ((c :: cs).filter _ ++ (diffFiles (t :: ts) cs).toAdd ++
        (diffFiles (t :: ts) cs).toReplace.map Prod.snd).Perm (t :: ts)
    rw [List.filter_cons_of_neg (by simp [hkc]), List.filter_congr hagree]
    exact hih
  | case5 t ts c cs hnlt hnlt2 hhash ih =>
    intro hst hsc hdf
    have hpeq : t.path = c.path := path_eq_of_not_lt hnlt hnlt2
    have hteq : t = c :=
      hdf t (List.mem_cons.mpr (Or.inl rfl)) c (List.mem_cons.mpr (Or.inl rfl)) hpeq hhash
    have hdf2 : driftFree ts cs := fun ft hft fc hfc =>
      hdf ft (List.mem_cons.mpr (Or.inr hft)) fc (List.mem_cons.mpr (Or.inr hfc))
    have hih := ih (sorted_of_cons hst) (sorted_of_cons hsc) hdf2
    rw [diffFiles_cons_hash_eq (congrArg String.data hpeq) hhash]
    have hkc : keepEntry (diffFiles ts cs) c = true := by
      rw [keepEntry_eq_true]
      exact ⟨fun h => head_not_mem_pathsOf hsc (removePaths_diffFiles_subset ts cs h),
        fun h => head_not_mem_pathsOf hsc (replacePaths_diffFiles_subset ts cs h)⟩
    show ((c :: cs).filter _ ++ (diffFiles ts cs).toAdd ++
        (diffFiles ts cs).toReplace.map Prod.snd).Perm (t :: ts)
    rw [List.filter_cons_of_pos hkc, List.cons_append, List.cons_append, hteq]
    exact List.Perm.cons c hih
  | case6 t ts c cs hnlt hnlt2 hhash ih =>
    intro hst hsc hdf
    have hpeq : t.path = c.path := path_eq_of_not_lt hnlt hnlt2
    have hdf2 : driftFree ts cs := fun ft hft fc hfc =>
      hdf ft (List.mem_cons.mpr (Or.inr hft)) fc (List.mem_cons.mpr (Or.inr hfc))
    have hih := ih (sorted_of_cons hst) (sorted_of_cons hsc) hdf2
    rw [diffFiles_cons_hash_ne (congrArg String.data hpeq) hhash]
    have hkc : keepEntry
        ⟨(diffFiles ts cs).toAdd, (c, t) :: (diffFiles ts cs).toReplace,
          (diffFiles ts cs).toRemove⟩ c = false := by
      simp [keepEntry, replacePaths, hpeq.symm]
    have hagree : ∀ f ∈ cs, keepEntry
        ⟨(diffFiles ts cs).toAdd, (c, t) :: (diffFiles ts cs).toReplace,
          (diffFiles ts cs).toRemove⟩ f = keepEntry (diffFiles ts cs) f := by
      intro f hf
      have hne : f.path ≠ t.path := fun he =>
        path_ne_of_pathLt (sorted_cons_lt hsc f hf) (he.trans hpeq).symm
      simp [keepEntry, removePaths, replacePaths, hne, beq_eq_false_iff_ne.mpr hne]
    show ((c :: cs).filter _ ++ (diffFiles ts cs).toAdd ++
        (t :: (diffFiles ts cs).toReplace.map Prod.snd)).Perm (t :: ts)
    rw [List.filter_cons_of_neg (by simp [hkc]), List.filter_congr hagree]
    refine List.perm_middle.trans ?_
    exact List.Perm.cons t hih

/-! ### Task state-machine termination -/

theorem taskStep_measure_lt {budget : Nat} {s t : TaskState} (h : TaskStep budget s t) :
    taskMeasure budget t < taskMeasure budget s := by
  cases h <;> (simp [taskMeasure, phaseRank]; try omega)

theorem acc_of_taskMeasure (budget : Nat) :
    ∀ (n : Nat) (s : TaskState), taskMeasure budget s ≤ n →
      Acc (fun t s => TaskStep budget s t) s := by
  intro n
  induction n with
  | zero =>
    intro s hs
    exact Acc.intro s fun t ht => absurd (taskStep_measure_lt ht) (by omega)
  | succ n ih =>
    intro s hs
    exact Acc.intro s fun t ht => ih t (by have := taskStep_measure_lt ht; omega)

/-! ### Claim theorems -/

/-- C1: for every input, the `download-game`, `launch-game`, `upload-save`
and `download-save` IPC handlers return
`{ success: false, message: 'Not implemented' }` and leave all client-local
state (store data and local tree) unchanged — no manifest comparison, file
transfer, or local-tree mutation happens. -/
theorem ipc_handlers_not_implemented :
    ∀ (st : ClientState) (gameId saveId : Int) (gamePath savePath : String),
      handleDownloadGame st gameId = (st, ⟨false, "Not implemented"⟩) ∧
      handleLaunchGame st gamePath = (st, ⟨false, "Not implemented"⟩) ∧
      handleUploadSave st gameId savePath = (st, ⟨false, "Not implemented"⟩) ∧
      handleDownloadSave st gameId saveId = (st, ⟨false, "Not implemented"⟩) :=
  fun _ _ _ _ _ => ⟨rfl, rfl, rfl, rfl⟩

/-- C2: `diff(A, A)` yields an empty plan, and whenever
`target.manifestHash = current.manifestHash` the diff engine
short-circuits to the empty plan — regardless of the file lists, so the
lists are never walked. -/
theorem diff_digest_short_circuit (A target current : GameManifest)
    (h : target.manifestHash = current.manifestHash) :
    diff A A = emptyPlan ∧ diff target current = emptyPlan := by
  constructor
  · simp [diff]
  · simp [diff, h]

/-- Witness for C2 at concrete manifests: the two manifests carry the same
stored digest but different file lists, and the plan is still empty. -/
theorem diff_digest_short_circuit_check :
    digestTwinX.manifestHash = digestTwinY.manifestHash ∧
    diff scenarioTarget scenarioTarget = emptyPlan ∧
    diff digestTwinX digestTwinY = emptyPlan :=
  ⟨rfl, (diff_digest_short_circuit scenarioTarget scenarioTarget scenarioTarget rfl).1,
    (diff_digest_short_circuit scenarioTarget digestTwinX digestTwinY rfl).2⟩

/-- C3: for manifests satisfying the Manifest sortedness invariant, the
plan's `toAdd`, `toReplace` and `toRemove` path sets are pairwise
disjoint, and every planned path comes from the union of the two
manifests' paths. -/
theorem diff_plan_partition (target current : GameManifest)
    (hst : target.files.Sorted pathLt) (hsc : current.files.Sorted pathLt) :
    ∀ p : String,
      ¬ (p ∈ addPaths (diff target current) ∧ p ∈ replacePaths (diff target current)) ∧
      ¬ (p ∈ addPaths (diff target current) ∧ p ∈ removePaths (diff target current)) ∧
      ¬ (p ∈ replacePaths (diff target current) ∧ p ∈ removePaths (diff target current)) ∧
      (p ∈ addPaths (diff target current) ∨ p ∈ replacePaths (diff target current) ∨
          p ∈ removePaths (diff target current) →
        p ∈ pathsOf target.files ∨ p ∈ pathsOf current.files) := by
  intro p
  unfold diff
  by_cases h : target.manifestHash = current.manifestHash
  · simp [h, emptyPlan, addPaths, replacePaths, removePaths]
  · rw [if_neg h]
    have hadd := mem_addPaths_diffFiles target.files current.files hst hsc p
    have hrem := mem_removePaths_diffFiles target.files current.files hst hsc p
    have hrep : p ∈ replacePaths (diffFiles target.files current.files) →
        p ∈ pathsOf target.files ∧ p ∈ pathsOf current.files := by
      intro hp
      obtain ⟨pr, hpr, he⟩ := List.mem_map.mp hp
      have hch := (mem_toReplace_diffFiles target.files current.files hst hsc pr.1 pr.2).mp hpr
      exact ⟨mem_pathsOf.mpr ⟨pr.2, hch.1, he⟩,
        mem_pathsOf.mpr ⟨pr.1, hch.2.1, hch.2.2.1.symm.trans he⟩⟩
    refine ⟨?_, ?_, ?_, ?_⟩
    · rintro ⟨h1, h2⟩
      exact (hadd.mp h1).2 (hrep h2).2
    · rintro ⟨h1, h2⟩
      exact (hadd.mp h1).2 (hrem.mp h2).1
    · rintro ⟨h1, h2⟩
      exact (hrem.mp h2).2 (hrep h1).1
    · rintro (h1 | h1 | h1)
      · exact Or.inl (hadd.mp h1).1
      · exact Or.inl (hrep h1).1
      · exact Or.inr (hrem.mp h1).1

/-- Witness for C3 at the concrete spec scenario manifests. -/
theorem diff_plan_partition_check :
    scenarioTarget.files.Sorted pathLt ∧ scenarioCurrent.files.Sorted pathLt ∧
    ¬ ("b.dat" ∈ addPaths (diff scenarioTarget scenarioCurrent) ∧
        "b.dat" ∈ replacePaths (diff scenarioTarget scenarioCurrent)) :=
  ⟨by decide, by decide,
    (diff_plan_partition scenarioTarget scenarioCurrent (by decide) (by decide) "b.dat").1⟩

/-- C4: for well-formed manifests, diff classifies each path: only in
target → `toAdd`; only in current → `toRemove`; in both with differing
content hash → `toReplace`; in both with equal content hash → no
operation at all, regardless of size or modifiedTime drift. -/
theorem diff_classification (target current : GameManifest)
    (hwt : wellFormed target) (hwc : wellFormed current) :
    ∀ p : String,
      ((p ∈ pathsOf target.files ∧ p ∉ pathsOf current.files) →
        p ∈ addPaths (diff target current)) ∧
      ((p ∉ pathsOf target.files ∧ p ∈ pathsOf current.files) →
        p ∈ removePaths (diff target current)) ∧
      (∀ ft fc, ft ∈ target.files → fc ∈ current.files → ft.path = p → fc.path = p →
        ft.hash ≠ fc.hash → p ∈ replacePaths (diff target current)) ∧
      (∀ ft fc, ft ∈ target.files → fc ∈ current.files → ft.path = p → fc.path = p →
        ft.hash = fc.hash →
        p ∉ addPaths (diff target current) ∧ p ∉ replacePaths (diff target current) ∧
          p ∉ removePaths (diff target current)) := by
  obtain ⟨hst, hht⟩ := hwt
  obtain ⟨hsc, hhc⟩ := hwc
  intro p
  unfold diff
  by_cases h : target.manifestHash = current.manifestHash
  · have hfeq : target.files = current.files := by
      have h1 : computeManifestHash target.files = computeManifestHash current.files := by
        rw [← hht, ← hhc, h]
      rwa [computeManifestHash_eq_of_sorted hst, computeManifestHash_eq_of_sorted hsc] at h1
    rw [if_pos h]
    refine ⟨?_, ?_, ?_, ?_⟩
    · rintro ⟨h1, h2⟩
      rw [hfeq] at h1
      exact absurd h1 h2
    · rintro ⟨h1, h2⟩
      rw [← hfeq] at h2
      exact absurd h2 h1
    · intro ft fc hft hfc hp1 hp2 hh
      rw [hfeq] at hft
      have heq : ft = fc := entry_unique hsc hft hfc (hp1.trans hp2.symm)
      exact absurd (congrArg FileManifestEntry.hash heq) hh
    · intro ft fc _ _ _ _ _
      simp [emptyPlan, addPaths, replacePaths, removePaths]
  · rw [if_neg h]
    have hadd := mem_addPaths_diffFiles target.files current.files hst hsc p
    have hrem := mem_removePaths_diffFiles target.files current.files hst hsc p
    refine ⟨fun hp => hadd.mpr hp, fun hp => hrem.mpr ⟨hp.2, hp.1⟩, ?_, ?_⟩
    · intro ft fc hft hfc hp1 hp2 hh
      have hpair : (fc, ft) ∈ (diffFiles target.files current.files).toReplace :=
        (mem_toReplace_diffFiles target.files current.files hst hsc fc ft).mpr
          ⟨hft, hfc, hp1.trans hp2.symm, hh⟩
      exact List.mem_map.mpr ⟨(fc, ft), hpair, hp1⟩
    · intro ft fc hft hfc hp1 hp2 hh
      refine ⟨?_, ?_, ?_⟩
      · intro hp
        exact (hadd.mp hp).2 (mem_pathsOf.mpr ⟨fc, hfc, hp2⟩)
      · intro hp
        obtain ⟨pr, hpr, he⟩ := List.mem_map.mp hp
        have hch := (mem_toReplace_diffFiles target.files current.files hst hsc pr.1 pr.2).mp hpr
        have h1 : pr.2 = ft := entry_unique hst hch.1 hft (he.trans hp1.symm)
        have h2 : pr.1 = fc :=
          entry_unique hsc hch.2.1 hfc ((hch.2.2.1.symm.trans he).trans hp2.symm)
        rw [h1, h2] at hch
        exact hch.2.2.2 hh
      · intro hp
        exact (hrem.mp hp).2 (mem_pathsOf.mpr ⟨ft, hft, hp1⟩)

/-- Witness for C4 at the concrete spec scenario: the plan is exactly
`toAdd:[b.dat], toReplace:[], toRemove:[c.dat]`. -/
theorem diff_classification_check :
    wellFormed scenarioTarget ∧ wellFormed scenarioCurrent ∧
    diff scenarioTarget scenarioCurrent =
      ⟨[⟨"b.dat", 20, "2024-01-01", "hashY"⟩], [], [⟨"c.dat", 30, "2024-01-01", "hashZ"⟩]⟩ ∧
    "b.dat" ∈ addPaths (diff scenarioTarget scenarioCurrent) := by
  refine ⟨by decide, by decide, ?_, ?_⟩
  · unfold diff
    rw [if_neg (by decide)]
    simp +decide [diffFiles, scenarioTarget, scenarioCurrent]
  · exact (diff_classification scenarioTarget scenarioCurrent (by decide) (by decide)
      "b.dat").1 ⟨by decide, by decide⟩

/-- C5: in the Verifying step, a content-hash mismatch never commits the
file — the local tree is unchanged — and the task discards its temporary
file entirely and re-enters `Pending` with its resume cursor reset to 0. -/
theorem verify_rejects_corruption (task : TransferTask) (tree : List (String × String))
    (bytes : String) (htemp : task.temp = some bytes)
    (hmis : hashBytes bytes ≠ task.expectedHash) :
    (verifyStep task tree).2 = tree ∧
    (verifyStep task tree).1.phase = TaskPhase.pending ∧
    (verifyStep task tree).1.cursor = 0 ∧
    (verifyStep task tree).1.temp = none := by
  simp [verifyStep, htemp, hmis]

/-- Witness for C5 at a concrete corrupt download. -/
theorem verify_rejects_corruption_check :
    corruptTask.temp = some ("bad") ∧
    hashBytes ("bad") ≠ corruptTask.expectedHash ∧
    ((verifyStep corruptTask staleTree).2 = staleTree ∧
      (verifyStep corruptTask staleTree).1.phase = TaskPhase.pending ∧
      (verifyStep corruptTask staleTree).1.cursor = 0 ∧
      (verifyStep corruptTask staleTree).1.temp = none) :=
  ⟨rfl, by decide,
    verify_rejects_corruption corruptTask staleTree ("bad") rfl (by decide)⟩

/-- C6 counterexample: both manifests are well formed, the single shared
path has equal content hash but drifted modifiedTime, the plan is empty,
and re-fingerprinting the reconciled tree does not reproduce the target
digest (the digest covers modifiedTime, which the no-op never updates). -/
theorem roundtrip_metadata_drift_refuted :
    wellFormed driftTarget ∧ wellFormed driftCurrent ∧
    computeManifestHash (applyPlan (diff driftTarget driftCurrent) driftCurrent.files) ≠
      driftTarget.manifestHash := by
  refine ⟨by decide, by decide, ?_⟩
  have h1 : diff driftTarget driftCurrent = emptyPlan := by
    unfold diff
    rw [if_neg (by decide)]
    simp +decide [diffFiles, driftTarget, driftCurrent]
  rw [h1]
  decide

/-- C6 (amended): for well-formed manifests with no metadata drift on
content-identical shared paths, applying the reconciliation plan to the
current tree and re-fingerprinting yields exactly the target digest. -/
theorem roundtrip_no_drift (target current : GameManifest)
    (hwt : wellFormed target) (hwc : wellFormed current)
    (hdf : driftFree target.files current.files) :
    computeManifestHash (applyPlan (diff target current) current.files) =
      target.manifestHash := by
  obtain ⟨hst, hht⟩ := hwt
  obtain ⟨hsc, hhc⟩ := hwc
  unfold diff
  by_cases h : target.manifestHash = current.manifestHash
  · rw [if_pos h]
    have happ : applyPlan emptyPlan current.files = current.files := by
      simp [applyPlan, keepEntry, removePaths, replacePaths, emptyPlan]
    rw [happ, ← hhc]
    exact h.symm
  · rw [if_neg h]
    have hperm := applyPlan_diffFiles_perm target.files current.files hst hsc hdf
    rw [hht]
    exact computeManifestHash_perm_congr hperm
      ((hperm.map FileManifestEntry.path).nodup_iff.mpr (nodup_pathsOf_of_sorted hst))

/-- Witness for C6 (amended) at a concrete content change: the plan
replaces `a.dat` and the round trip reproduces the target digest. -/
theorem roundtrip_no_drift_check :
    wellFormed editTarget ∧ wellFormed editCurrent ∧
    driftFree editTarget.files editCurrent.files ∧
    computeManifestHash (applyPlan (diff editTarget editCurrent) editCurrent.files) =
      editTarget.manifestHash :=
  ⟨by decide, by decide, by decide,
    roundtrip_no_drift editTarget editCurrent (by decide) (by decide) (by decide)⟩

/-- C7: manifest hashing is order-independent — permuting the fingerprint
list before the mandatory sort yields an identical digest (paths are
unique within a manifest, per the data-model invariant). -/
theorem manifestHash_order_independent (l₁ l₂ : List FileManifestEntry)
    (hperm : l₁.Perm l₂) (hnd : (pathsOf l₁).Nodup) :
    computeManifestHash l₁ = computeManifestHash l₂ :=
  computeManifestHash_perm_congr hperm hnd

/-- Witness for C7 at a concrete two-element permutation. -/
theorem manifestHash_order_independent_check :
    ([⟨"b.dat", 2, "t", "h2"⟩, ⟨"a.dat", 1, "t", "h1"⟩] : List FileManifestEntry).Perm
      [⟨"a.dat", 1, "t", "h1"⟩, ⟨"b.dat", 2, "t", "h2"⟩] ∧
    (pathsOf [⟨"b.dat", 2, "t", "h2"⟩, ⟨"a.dat", 1, "t", "h1"⟩]).Nodup ∧
    computeManifestHash [⟨"b.dat", 2, "t", "h2"⟩, ⟨"a.dat", 1, "t", "h1"⟩] =
      computeManifestHash [⟨"a.dat", 1, "t", "h1"⟩, ⟨"b.dat", 2, "t", "h2"⟩] :=
  ⟨by decide, by decide,
    manifestHash_order_independent
      [⟨"b.dat", 2, "t", "h2"⟩, ⟨"a.dat", 1, "t", "h1"⟩]
      [⟨"a.dat", 1, "t", "h1"⟩, ⟨"b.dat", 2, "t", "h2"⟩] (by decide) (by decide)⟩

/-- C8: the per-task retry state machine admits no infinite run — from
every state, every chain of `TaskStep` transitions is finite (the finite
retry budget strictly shrinks a termination measure), so a sync cycle
never hangs. -/
theorem sync_tasks_terminate (budget : Nat) (s : TaskState) :
    Acc (fun t s => TaskStep budget s t) s :=
  acc_of_taskMeasure budget (taskMeasure budget s) s le_rfl

/-- C9: `getGameManifestHash` requests `GET /api/games/{id}/manifest-hash`
(digest only) and `getGameManifest` requests `GET /api/games/{id}/manifest`
(full payload); the two requests are distinct for every game id. -/
theorem manifest_endpoints (id : Int) :
    getGameManifestHash id = ⟨"GET", "/api/games/" ++ toString id ++ "/manifest-hash"⟩ ∧
    getGameManifest id = ⟨"GET", "/api/games/" ++ toString id ++ "/manifest"⟩ ∧
    getGameManifestHash id ≠ getGameManifest id := by
  refine ⟨rfl, rfl, ?_⟩
  intro he
  have hu : ("/api/games/" ++ toString id ++ "/manifest-hash") =
      ("/api/games/" ++ toString id ++ "/manifest") := congrArg ApiRequest.url he
  have hl := congrArg String.length hu
  have h14 : ("/manifest-hash" : String).length = 14 := by decide
  have h9 : ("/manifest" : String).length = 9 := by decide
  rw [String.length_append, String.length_append, String.length_append,
    String.length_append, h14, h9] at hl
  omega

/-- C10: a progress event carries exactly the seven declared fields —
every `DownloadProgress` value is the record of its `gameId`,
`totalFiles`, `completedFiles`, `totalBytes`, `downloadedBytes`, `speed`
and `eta` projections. -/
theorem download_progress_fields (p : DownloadProgress) :
    p = ⟨p.gameId, p.totalFiles, p.completedFiles, p.totalBytes, p.downloadedBytes,
      p.speed, p.eta⟩ :=
  rfl

end GameVault
